import Mathlib

/-!
# CodeCrafter component generator: the generation pipeline of `src/pages/Home.jsx`

A shallow embedding of the three functions of `Home.jsx` that carry the
pipeline's logic:

* `extractCode`   (lines 42-45): a regular-expression search followed by `trim`;
* `getResponse`   (lines 54-125): the retry loop around the generation service;
* `downnloadFile` (lines 142-177): the extension and MIME tables of the export.

Strings.  A JavaScript string is a sequence of UTF-16 code units.  It is
modelled as a list of Unicode characters (`Str`).  Every character that the
regular expression or `trim` tells apart from the others (the backtick, the
line feed, the ASCII word characters, the white space of ECMAScript) lies in
the Basic Multilingual Plane, and a surrogate code unit is none of them, so on
a well-formed string the code computes the UTF-16 form of what the model
computes.
-/

namespace CodeCrafter

/-- A string of the program. -/
abbrev Str := List Char

/-! ## `String.prototype.trim` and `String.prototype.includes` -/

/-- White space and line terminators of ECMAScript, the characters `trim` strips:
TAB, LF, VT, FF, CR, SP, NBSP, the other space separators (category Zs), LS, PS
and the byte order mark. -/
def isJsSpace (c : Char) : Bool :=
  let n := c.toNat
  n == 0x09 || n == 0x0A || n == 0x0B || n == 0x0C || n == 0x0D || n == 0x20 ||
  n == 0xA0 || n == 0x1680 || (0x2000 ≤ n && n ≤ 0x200A) || n == 0x2028 ||
  n == 0x2029 || n == 0x202F || n == 0x205F || n == 0x3000 || n == 0xFEFF

/-- The method `trim`: white space removed at both ends. -/
def trim (s : Str) : Str :=
  ((s.dropWhile isJsSpace).reverse.dropWhile isJsSpace).reverse

/-- The test `s.startsWith(needle)`. -/
def startsWith : Str → Str → Bool
  | [], _ => true
  | _ :: _, [] => false
  | a :: as, b :: bs => a == b && startsWith as bs

/-- The method `includes`: `includes needle s` is `s.includes(needle)`. -/
def includes (needle : Str) : Str → Bool
  | [] => startsWith needle []
  | c :: cs => startsWith needle (c :: cs) || includes needle cs

/-! ## A backtracking matcher for the constructs of the fence pattern -/

/-- The class `\w` of a pattern without the `u` and `i` flags: `[A-Za-z0-9_]`. -/
def isWordChar (c : Char) : Bool :=
  c.isAlphanum || c == '_'

/-- The class `[\s\S]`: every code unit. -/
def anyChar (_ : Char) : Bool := true

/-- Syntax of the patterns used: a literal character, sequencing, the greedy
optional `r?`, the greedy `[cls]+`, the lazy `[cls]*?` and the capturing group
(the pattern has one group, group 1). -/
inductive Regex where
  | char (c : Char)
  | seq (r₁ r₂ : Regex)
  | opt (r : Regex)
  | plus (cls : Char → Bool)
  | lazyStar (cls : Char → Bool)
  | group (r : Regex)

/-- Greedy repetition of a class: the longer match is tried first, the
continuation `k` decides whether the rest of the pattern matches. -/
def greedyLoop {α : Type} (cls : Char → Bool) : Str → (Str → Option α) → Option α
  | [], k => k []
  | c :: cs, k =>
    if cls c then (greedyLoop cls cs k).orElse (fun _ => k (c :: cs)) else k (c :: cs)

/-- Lazy repetition of a class: the shorter match is tried first. -/
def lazyLoop {α : Type} (cls : Char → Bool) : Str → (Str → Option α) → Option α
  | [], k => k []
  | c :: cs, k => (k (c :: cs)).orElse (fun _ => if cls c then lazyLoop cls cs k else none)

/-- Backtracking match of a pattern at the head of `inp`.  `cap` is the
current value of group 1 (`none` is `undefined`), `k` the continuation that
matches the rest of the pattern; the first success in the order of ECMAScript
(greedy: longer first, lazy: shorter first) is the result. -/
def Regex.run {α : Type} : Regex → Str → Option Str → (Str → Option Str → Option α) → Option α
  | .char c, inp, cap, k =>
    match inp with
    | x :: xs => if x = c then k xs cap else none
    | [] => none
  | .seq r₁ r₂, inp, cap, k => r₁.run inp cap (fun rest cap₁ => r₂.run rest cap₁ k)
  | .opt r, inp, cap, k => (r.run inp cap k).orElse (fun _ => k inp cap)
  | .plus cls, inp, cap, k =>
    match inp with
    | x :: xs => if cls x then greedyLoop cls xs (fun rest => k rest cap) else none
    | [] => none
  | .lazyStar cls, inp, cap, k => lazyLoop cls inp (fun rest => k rest cap)
  | .group r, inp, _, k =>
    r.run inp none (fun rest _ => k rest (some (inp.take (inp.length - rest.length))))

/-- The search of `String.prototype.match` for a pattern without the `g` flag:
the match is attempted at index 0, 1, ... up to the end of the input and the
first success wins.  The result is group 1 of the match (`some none` when the
pattern matched and the group took no part), `none` when nothing matched. -/
def Regex.exec (r : Regex) : Str → Option (Option Str)
  | [] => r.run [] none (fun _ cap => some cap)
  | c :: cs => (r.run (c :: cs) none (fun _ cap => some cap)).orElse (fun _ => r.exec cs)

/-! ## `extractCode` -/

/-- The fence marker, three backticks. -/
def fence : Str := ['`', '`', '`']

/-- The pattern of line 43: three backticks, `(?:\w+)?`, `\n?`, `([\s\S]*?)`,
three backticks. -/
def fenceRegex : Regex :=
  .seq (.char '`') (.seq (.char '`') (.seq (.char '`')
    (.seq (.opt (.plus isWordChar))
      (.seq (.opt (.char '\n'))
        (.seq (.group (.lazyStar anyChar))
          (.seq (.char '`') (.seq (.char '`') (.char '`'))))))))

/-- The function `extractCode` (lines 42-45):
`match ? match[1].trim() : response.trim()`.  Group 1 stands outside every
quantifier, so it is defined in every match (`exec_fenceRegex` below) and the
middle case never runs. -/
def extractCode (response : Str) : Str :=
  match fenceRegex.exec response with
  | some (some interior) => trim interior
  | some none => []
  | none => trim response

/-! ## The search of the pattern, described without backtracking -/

/-- The input without a leading fence marker, when it starts with one. -/
def stripFence : Str → Option Str
  | a :: b :: c :: rest => if a = '`' ∧ b = '`' ∧ c = '`' then some rest else none
  | _ => none

/-- The text after the first fence marker of the input. -/
def afterFence : Str → Option Str
  | [] => none
  | c :: cs =>
    match stripFence (c :: cs) with
    | some rest => some rest
    | none => afterFence cs

/-- The text before the first fence marker of the input. -/
def untilFence : Str → Option Str
  | [] => none
  | c :: cs =>
    match stripFence (c :: cs) with
    | some _ => some []
    | none => (untilFence cs).map (c :: ·)

/-- The input without one leading line feed. -/
def dropNewline : Str → Str
  | c :: cs => if c = '\n' then cs else c :: cs
  | [] => []

/-- The text the pattern captures: after the first fence marker, the longest
run of word characters and one line feed are skipped, and the text up to the
next fence marker is the interior. -/
def fencedInterior (s : Str) : Option Str :=
  (afterFence s).bind (fun rest => untilFence (dropNewline (rest.dropWhile isWordChar)))

/-! ## The generation service and `getResponse` -/

/-- The member `text` of a response object: the text itself, or a function of
no argument that returns it. -/
inductive ResponseText where
  | eager (text : Str)
  | accessor (text : Str)
  deriving DecidableEq

/-- Line 113: `typeof response.text === "function" ? response.text() : response.text`. -/
def ResponseText.read : ResponseText → Str
  | .eager text => text
  | .accessor text => text

/-- What one call of `ai.models.generateContent` does: the promise rejects
with an error of the given message, resolves with a falsy value (`null`,
`undefined`), or resolves with a response object. -/
inductive ServiceOutcome where
  | reject (message : Str)
  | resolveFalsy
  | resolve (response : ResponseText)
  deriving DecidableEq

/-- A behaviour of the service: the outcome of its call number `n`, from 0. -/
abbrev Service := Nat → ServiceOutcome

/-- The marker of an overload that lines 102 and 117 look for in a message. -/
def overloadMarker : Str := "503".toList

/-- Line 61. -/
def maxRetries : Nat := 3

/-- What the loop does that can be seen from outside: the calls of the service
issued, the retry notices of line 103 (the attempt number each one prints) and
the backoff delays of line 104, in milliseconds. -/
structure Effects where
  calls : Nat
  notices : List Nat
  waits : List Nat
  deriving DecidableEq

/-- No effect yet. -/
def Effects.init : Effects := ⟨0, [], []⟩

/-- How the loop of lines 80-109 stands: still running when the fuel is spent
(each call of the service costs one unit), left through `break` or through its
condition with the value of `response`, or left by the `throw` of line 106. -/
inductive LoopResult where
  | running (attempt : Nat) (fx : Effects)
  | exited (response : Option ResponseText) (fx : Effects)
  | threw (message : Str) (fx : Effects)
  deriving DecidableEq

/-- The loop of lines 80-109, from the state `attempt` with the effects `fx`
so far.  A call that resolves with a response leaves the loop (line 99); one
that resolves with a falsy value falls through to the next round, `attempt`
unchanged; a rejection adds one to `attempt` (line 101) and then either prints
the notice and waits `2000 * attempt` ms (lines 103-104) or throws the error
again (line 106). -/
def retryLoop (svc : Service) : Nat → Nat → Effects → LoopResult
  | 0, attempt, fx => if attempt < maxRetries then .running attempt fx else .exited none fx
  | fuel + 1, attempt, fx =>
    if attempt < maxRetries then
      match svc fx.calls with
      | .resolve response => .exited (some response) ⟨fx.calls + 1, fx.notices, fx.waits⟩
      | .resolveFalsy => retryLoop svc fuel attempt ⟨fx.calls + 1, fx.notices, fx.waits⟩
      | .reject message =>
        if includes overloadMarker message then
          retryLoop svc fuel (attempt + 1)
            ⟨fx.calls + 1, fx.notices ++ [attempt + 1], fx.waits ++ [2000 * (attempt + 1)]⟩
        else .threw message ⟨fx.calls + 1, fx.notices, fx.waits⟩
    else .exited none fx

/-- The part of the component state that `getResponse` reads or writes. -/
structure View where
  prompt : Str
  code : Str
  loading : Bool
  outputScreen : Bool
  deriving DecidableEq

/-- Line 55. -/
def promptToast : Str := "Please describe your component first".toList

/-- Line 111. -/
def unavailableMessage : Str := "Model unavailable after multiple retries".toList

/-- Line 118. -/
def overloadedToast : Str :=
  "Gemini is temporarily overloaded. Please try again in a few seconds.".toList

/-- Line 120. -/
def genericToast : Str := "Something went wrong while generating code".toList

/-- The end of a run of `getResponse`: the state of the view, the effects of
the loop, the message of the error caught at line 115 (`none` when none was
thrown) and the text of the error toast shown (`none` when none was). -/
structure Run where
  view : View
  fx : Effects
  caught : Option Str
  toast : Option Str
  deriving DecidableEq

/-- The handler of lines 115-124 for an error of the given message, with the
`finally` of line 123. -/
def handleError (view : View) (fx : Effects) (message : Str) : Run :=
  { view := { view with loading := false }
    fx := fx
    caught := some message
    toast := some (if includes overloadMarker message then overloadedToast else genericToast) }

/-- What follows the loop (lines 111-124), on the view as lines 58-59 left it. -/
def finish (view : View) : LoopResult → Option Run
  | .running _ _ => none
  | .exited (some response) fx =>
    some { view := { view with code := extractCode response.read, loading := false }
           fx := fx
           caught := none
           toast := none }
  | .exited none fx => some (handleError view fx unavailableMessage)
  | .threw message fx => some (handleError view fx message)

/-- The function `getResponse` (lines 54-125), run with `fuel` units; `none`
when the loop is still running once the fuel is spent. -/
def getResponse (svc : Service) (fuel : Nat) (view : View) : Option Run :=
  if trim view.prompt = [] then
    some { view := view, fx := Effects.init, caught := none, toast := some promptToast }
  else
    finish { view with loading := true, outputScreen := true }
      (retryLoop svc fuel 0 Effects.init)

/-! ## `downnloadFile` -/

/-- Line 143. -/
def noCodeToast : Str := "No code to download".toList

/-- The values of the `options` of lines 19-28, the framework catalog. -/
def catalogIds : List Str :=
  ["html-css".toList, "html-tailwind".toList, "html-bootstrap".toList, "react-js".toList,
   "react-tailwind".toList, "react-bootstrap".toList, "next-js".toList, "angular".toList]

/-- The object of lines 146-155. -/
def extensionMap : List (Str × Str) :=
  [("html-css".toList, "html".toList),
   ("html-tailwind".toList, "html".toList),
   ("html-bootstrap".toList, "html".toList),
   ("react-js".toList, "jsx".toList),
   ("react-tailwind".toList, "jsx".toList),
   ("react-bootstrap".toList, "jsx".toList),
   ("next-js".toList, "jsx".toList),
   ("angular".toList, "ts".toList)]

/-- The object of lines 161-165. -/
def mimeMap : List (Str × Str) :=
  [("html".toList, "text/html".toList),
   ("jsx".toList, "text/javascript".toList),
   ("ts".toList, "text/typescript".toList)]

/-- The names every object literal inherits from `Object.prototype`: reading
one of them on a literal gives a built-in function or object, not `undefined`. -/
def objectPrototypeKeys : List Str :=
  ["constructor".toList, "hasOwnProperty".toList, "isPrototypeOf".toList,
   "propertyIsEnumerable".toList, "toLocaleString".toList, "toString".toList,
   "valueOf".toList, "__proto__".toList, "__defineGetter__".toList,
   "__defineSetter__".toList, "__lookupGetter__".toList, "__lookupSetter__".toList]

/-- The value of `literal[key]`: the value of an own key, an inherited
built-in, or `undefined`. -/
inductive Lookup where
  | own (value : Str)
  | inherited
  | undefined
  deriving DecidableEq

/-- The read `literal[key]` on an object literal of string values. -/
def lookupLiteral (literal : List (Str × Str)) (key : Str) : Lookup :=
  match literal.lookup key with
  | some value => .own value
  | none => if key ∈ objectPrototypeKeys then .inherited else .undefined

/-- The expression `literal[key] || fallback` as a string; `none` when it is an
inherited built-in, which is truthy and not a string.  The values of the two
tables are non-empty strings, so an own value is truthy. -/
def Lookup.orElse : Lookup → Str → Option Str
  | .own value, _ => some value
  | .inherited, _ => none
  | .undefined, fallback => some fallback

/-- What a click on the export button does: an error toast and no file, a
file of the given name, MIME type and content with the toast of line 176, or a
file named after the text the engine gives to an inherited built-in. -/
inductive ExportResult where
  | rejected (toast : Str)
  | downloaded (fileName mimeType content toast : Str)
  | engineDefined
  deriving DecidableEq

/-- The function `downnloadFile` (lines 142-177) on the state `code` and
`frameWork.value`. -/
def downnloadFile (code frameWorkValue : Str) : ExportResult :=
  if trim code = [] then .rejected noCodeToast
  else
    match (lookupLiteral extensionMap frameWorkValue).orElse "html".toList with
    | none => .engineDefined
    | some extension =>
      let fileName := "CodeCrafter-Code.".toList ++ extension
      match (lookupLiteral mimeMap extension).orElse "text/plain".toList with
      | none => .engineDefined
      | some mimeType =>
        .downloaded fileName mimeType code ("File downloaded as ".toList ++ fileName)

/-! # Theorems -/

/-! ## Lemmas on the fence search -/

theorem stripFence_cons_of_ne {c : Char} (h : c ≠ '`') (cs : Str) :
    stripFence (c :: cs) = none := by
  match cs with
  | [] => rfl
  | [_] => rfl
  | _ :: _ :: _ => simp [stripFence, h]

theorem stripFence_eq_some {s rest : Str} (h : stripFence s = some rest) :
    s = fence ++ rest := by
  match s, h with
  | a :: b :: c :: r, h =>
    simp only [stripFence] at h
    split_ifs at h with hc
    obtain ⟨rfl, rfl, rfl⟩ := hc
    simp only [Option.some.injEq] at h
    subst h
    rfl

theorem stripFence_fence_append (r : Str) : stripFence (fence ++ r) = some r := by
  simp [fence, stripFence]

theorem run_three_backticks {α : Type} (r : Regex) (inp : Str) (cap : Option Str)
    (k : Str → Option Str → Option α) :
    (Regex.seq (.char '`') (.seq (.char '`') (.seq (.char '`') r))).run inp cap k =
      match stripFence inp with
      | some rest => r.run rest cap k
      | none => none := by
  match inp with
  | [] => rfl
  | [a] => by_cases h : a = '`' <;> simp [Regex.run, stripFence, h]
  | [a, b] => by_cases h : a = '`' <;> by_cases h₂ : b = '`' <;> simp [Regex.run, stripFence, h, h₂]
  | a :: b :: c :: rest =>
    by_cases h : a = '`' <;> by_cases h₂ : b = '`' <;> by_cases h₃ : c = '`' <;>
      simp [Regex.run, stripFence, h, h₂, h₃]

theorem run_closing_backticks {α : Type} (inp : Str) (cap : Option Str)
    (k : Str → Option Str → Option α) :
    (Regex.seq (.char '`') (.seq (.char '`') (.char '`'))).run inp cap k =
      match stripFence inp with
      | some rest => k rest cap
      | none => none := by
  match inp with
  | [] => rfl
  | [a] => by_cases h : a = '`' <;> simp [Regex.run, stripFence, h]
  | [a, b] => by_cases h : a = '`' <;> by_cases h₂ : b = '`' <;> simp [Regex.run, stripFence, h, h₂]
  | a :: b :: c :: rest =>
    by_cases h : a = '`' <;> by_cases h₂ : b = '`' <;> by_cases h₃ : c = '`' <;>
      simp [Regex.run, stripFence, h, h₂, h₃]

/-- The lazy loop followed by the closing fence stops at the first fence marker. -/
theorem lazyLoop_until_fence (t full acc : Str) (hfull : full = acc ++ t) :
    lazyLoop anyChar t (fun rest =>
        match stripFence rest with
        | some _ => some (some (full.take (full.length - rest.length)))
        | none => none) =
      (untilFence t).map (fun b => some (acc ++ b)) := by
  induction t generalizing acc with
  | nil => simp [lazyLoop, stripFence, untilFence]
  | cons c cs ih =>
    cases hs : stripFence (c :: cs) with
    | some r =>
      subst hfull
      simp [lazyLoop, untilFence, hs]
    | none =>
      have := ih (acc ++ [c]) (by simp [hfull])
      simp [lazyLoop, untilFence, hs, anyChar, this, Option.map_map, Function.comp_def]

/-- The capturing group and the closing fence, run on `inp`. -/
theorem run_group_closing (inp : Str) (cap : Option Str) :
    (Regex.seq (.group (.lazyStar anyChar))
        (.seq (.char '`') (.seq (.char '`') (.char '`')))).run inp cap (fun _ c => some c) =
      (untilFence inp).map some := by
  have h := lazyLoop_until_fence inp inp [] rfl
  simp only [List.nil_append] at h
  rw [← h]
  show lazyLoop anyChar inp (fun rest =>
      (Regex.seq (.char '`') (.seq (.char '`') (.char '`'))).run rest
        (some (inp.take (inp.length - rest.length))) (fun _ c => some c)) = _
  simp only [run_closing_backticks]

theorem isWordChar_ne_backtick {c : Char} (h : isWordChar c = true) : c ≠ '`' := by
  rintro rfl
  exact absurd h (by decide)

theorem isWordChar_ne_newline {c : Char} (h : isWordChar c = true) : c ≠ '\n' := by
  rintro rfl
  exact absurd h (by decide)

theorem untilFence_cons_of_ne {c : Char} (h : c ≠ '`') (t : Str) :
    untilFence (c :: t) = (untilFence t).map (c :: ·) := by
  simp [untilFence, stripFence_cons_of_ne h]

theorem afterFence_cons_of_ne {c : Char} (h : c ≠ '`') (t : Str) :
    afterFence (c :: t) = afterFence t := by
  simp [afterFence, stripFence_cons_of_ne h]

theorem untilFence_dropNewline_eq_none {t : Str} (h : untilFence (dropNewline t) = none) :
    untilFence t = none := by
  match t with
  | [] => rfl
  | c :: cs =>
    by_cases hc : c = '\n'
    · subst hc
      rw [untilFence_cons_of_ne (by decide)]
      simpa [dropNewline] using h
    · simpa [dropNewline, hc] using h

theorem untilFence_dropWhile_eq_none {t : Str}
    (h : untilFence (t.dropWhile isWordChar) = none) : untilFence t = none := by
  induction t with
  | nil => rfl
  | cons c cs ih =>
    by_cases hc : isWordChar c = true
    · rw [untilFence_cons_of_ne (isWordChar_ne_backtick hc)]
      simp [ih (by simpa [List.dropWhile, hc] using h)]
    · simpa [List.dropWhile, hc] using h

theorem dropNewline_cons_word {c : Char} (h : isWordChar c = true) (t : Str) :
    dropNewline (c :: t) = c :: t := by
  simp [dropNewline, isWordChar_ne_newline h]

/-- The optional line feed, the group and the closing fence. -/
theorem run_newline_group (inp : Str) (cap : Option Str) :
    (Regex.seq (.opt (.char '\n')) (.seq (.group (.lazyStar anyChar))
        (.seq (.char '`') (.seq (.char '`') (.char '`'))))).run inp cap (fun _ c => some c) =
      (untilFence (dropNewline inp)).map some := by
  show ((Regex.char '\n').run inp cap (fun rest cap₁ =>
      (Regex.seq (.group (.lazyStar anyChar))
        (.seq (.char '`') (.seq (.char '`') (.char '`')))).run rest cap₁ (fun _ c => some c))).orElse
      (fun _ => (Regex.seq (.group (.lazyStar anyChar))
        (.seq (.char '`') (.seq (.char '`') (.char '`')))).run inp cap (fun _ c => some c)) = _
  simp only [run_group_closing]
  match inp with
  | [] => rfl
  | c :: cs =>
    show (if c = '\n' then (untilFence cs).map some else none).orElse
      (fun _ => (untilFence (c :: cs)).map some) = _
    by_cases hc : c = '\n'
    · subst hc
      cases h : untilFence cs with
      | none => simp [dropNewline, h, untilFence_cons_of_ne]
      | some b => simp [dropNewline, h]
    · simp [dropNewline, hc]

theorem run_seq {α : Type} (r₁ r₂ : Regex) (inp : Str) (cap : Option Str)
    (k : Str → Option Str → Option α) :
    (Regex.seq r₁ r₂).run inp cap k = r₁.run inp cap (fun rest cap₁ => r₂.run rest cap₁ k) :=
  rfl

theorem run_opt {α : Type} (r : Regex) (inp : Str) (cap : Option Str)
    (k : Str → Option Str → Option α) :
    (Regex.opt r).run inp cap k = (r.run inp cap k).orElse (fun _ => k inp cap) :=
  rfl

theorem run_plus_nil {α : Type} (cls : Char → Bool) (cap : Option Str)
    (k : Str → Option Str → Option α) :
    (Regex.plus cls).run [] cap k = none :=
  rfl

theorem run_plus_cons {α : Type} (cls : Char → Bool) (x : Char) (xs : Str) (cap : Option Str)
    (k : Str → Option Str → Option α) :
    (Regex.plus cls).run (x :: xs) cap k =
      if cls x then greedyLoop cls xs (fun rest => k rest cap) else none :=
  rfl

/-- The greedy loop over the word characters of the tag: the longest run is the
one that decides, a shorter run leaves a text that holds a closing fence only
if the longest does. -/
theorem greedyLoop_tag (t : Str) :
    greedyLoop isWordChar t (fun rest => (untilFence (dropNewline rest)).map some) =
      (untilFence (dropNewline (t.dropWhile isWordChar))).map some := by
  induction t with
  | nil => simp [greedyLoop]
  | cons c cs ih =>
    by_cases hc : isWordChar c = true
    · simp only [greedyLoop, hc, if_true, ih, List.dropWhile]
      cases h : untilFence (dropNewline (cs.dropWhile isWordChar)) with
      | some b => simp
      | none =>
        have h₁ := untilFence_dropWhile_eq_none (untilFence_dropNewline_eq_none h)
        simp [dropNewline_cons_word hc, untilFence_cons_of_ne (isWordChar_ne_backtick hc), h₁]
    · simp [greedyLoop, hc, List.dropWhile]

/-- The part of the pattern after the opening fence. -/
theorem run_tag_group (inp : Str) (cap : Option Str) :
    (Regex.seq (.opt (.plus isWordChar)) (.seq (.opt (.char '\n'))
        (.seq (.group (.lazyStar anyChar))
          (.seq (.char '`') (.seq (.char '`') (.char '`')))))).run inp cap (fun _ c => some c) =
      (untilFence (dropNewline (inp.dropWhile isWordChar))).map some := by
  rw [run_seq, run_opt]
  simp only [run_newline_group]
  match inp with
  | [] => simp [run_plus_nil]
  | c :: cs =>
    rw [run_plus_cons]
    by_cases hc : isWordChar c = true
    · simp only [hc, if_true, greedyLoop_tag, List.dropWhile]
      cases h : untilFence (dropNewline (cs.dropWhile isWordChar)) with
      | some b => simp
      | none =>
        have h₁ := untilFence_dropWhile_eq_none (untilFence_dropNewline_eq_none h)
        simp [dropNewline_cons_word hc, untilFence_cons_of_ne (isWordChar_ne_backtick hc), h₁]
    · simp [hc, List.dropWhile]

/-- One attempt of the pattern at the head of the input. -/
theorem run_fenceRegex (inp : Str) :
    fenceRegex.run inp none (fun _ c => some c) =
      match stripFence inp with
      | some rest => (untilFence (dropNewline (rest.dropWhile isWordChar))).map some
      | none => none := by
  unfold fenceRegex
  rw [run_three_backticks]
  cases stripFence inp with
  | none => rfl
  | some rest => exact run_tag_group rest none

theorem untilFence_tail_eq_none {c : Char} {t : Str} (h : untilFence (c :: t) = none) :
    untilFence t = none := by
  simp only [untilFence] at h
  cases hs : stripFence (c :: t) with
  | some r => simp [hs] at h
  | none => simpa [hs] using h

/-- A text without a fence marker has no suffix with one. -/
theorem untilFence_suffix_eq_none {r t : Str} (hr : r <:+ t) (h : untilFence t = none) :
    untilFence r = none := by
  induction t with
  | nil => simpa [List.suffix_nil.mp hr] using h
  | cons c cs ih =>
    rcases List.suffix_cons_iff.mp hr with rfl | hr'
    · exact h
    · exact ih hr' (untilFence_tail_eq_none h)

theorem afterFence_suffix {t r : Str} (h : afterFence t = some r) :
    r <:+ t ∧ r.length + 3 ≤ t.length := by
  induction t with
  | nil => simp [afterFence] at h
  | cons c cs ih =>
    simp only [afterFence] at h
    cases hs : stripFence (c :: cs) with
    | some rest =>
      simp only [hs, Option.some.injEq] at h
      subst h
      rw [stripFence_eq_some hs]
      exact ⟨List.suffix_append _ _, by simp [fence]⟩
    | none =>
      simp only [hs] at h
      obtain ⟨h₁, h₂⟩ := ih h
      exact ⟨h₁.trans (List.suffix_cons _ _), by simp; omega⟩

theorem skip_suffix (t : Str) : dropNewline (t.dropWhile isWordChar) <:+ t := by
  refine List.IsSuffix.trans ?_ (List.dropWhile_suffix isWordChar)
  cases t.dropWhile isWordChar with
  | nil => exact List.suffix_refl _
  | cons c cs =>
    by_cases hc : c = '\n' <;> simp [dropNewline, hc]

/-- The text skipped after the opening fence holds no fence marker. -/
theorem untilFence_skip_eq_none {t : Str} (h : untilFence t = none) :
    untilFence (dropNewline (t.dropWhile isWordChar)) = none := by
  exact untilFence_suffix_eq_none (skip_suffix t) h

/-- When the pattern fails at a fence marker, it fails at every later index. -/
theorem fencedInterior_eq_none_of_strip {c : Char} {cs rest : Str}
    (hs : stripFence (c :: cs) = some rest)
    (h : untilFence (dropNewline (rest.dropWhile isWordChar)) = none) :
    fencedInterior cs = none := by
  have h₁ : untilFence rest = none :=
    untilFence_dropWhile_eq_none (untilFence_dropNewline_eq_none h)
  have hcs : cs = '`' :: '`' :: rest := by
    have := stripFence_eq_some hs
    simp only [fence, List.cons_append, List.nil_append, List.cons.injEq] at this
    exact this.2
  unfold fencedInterior
  cases ha : afterFence cs with
  | none => rfl
  | some r =>
    obtain ⟨hsuf, hlen⟩ := afterFence_suffix ha
    subst hcs
    have hr : r <:+ rest := by
      rcases List.suffix_cons_iff.mp hsuf with rfl | h₂
      · simp at hlen
      · rcases List.suffix_cons_iff.mp h₂ with rfl | h₃
        · simp at hlen
        · exact h₃
    simpa using untilFence_skip_eq_none (untilFence_suffix_eq_none hr h₁)

/-- The search of the pattern finds the interior of the first fenced block:
the backtracking matcher and the description without backtracking agree. -/
theorem exec_fenceRegex (s : Str) : fenceRegex.exec s = (fencedInterior s).map some := by
  induction s with
  | nil => rfl
  | cons c cs ih =>
    simp only [Regex.exec, run_fenceRegex, ih]
    cases hs : stripFence (c :: cs) with
    | none => simp [fencedInterior, afterFence, hs]
    | some rest =>
      cases h : untilFence (dropNewline (rest.dropWhile isWordChar)) with
      | some b => simp [fencedInterior, afterFence, hs, h]
      | none =>
        rw [fencedInterior_eq_none_of_strip hs h]
        simp [fencedInterior, afterFence, hs, h]

/-- The function `extractCode` in terms of the first fenced block. -/
theorem extractCode_eq (s : Str) :
    extractCode s = trim ((fencedInterior s).getD s) := by
  unfold extractCode
  rw [exec_fenceRegex]
  cases fencedInterior s <;> rfl

/-! ## Lemmas on `trim` and `includes` -/

theorem trim_eq (s : Str) : trim s = (s.dropWhile isJsSpace).rdropWhile isJsSpace := rfl

theorem trim_inside (s : Str) : trim s <:+: s :=
  (List.rdropWhile_prefix isJsSpace _).isInfix.trans (List.dropWhile_suffix isJsSpace).isInfix

theorem trim_eq_nil_iff (s : Str) : trim s = [] ↔ ∀ c ∈ s, isJsSpace c = true := by
  rw [trim_eq, List.rdropWhile_eq_nil_iff]
  constructor
  · intro h
    by_contra hne
    have hd : s.dropWhile isJsSpace ≠ [] := by
      rwa [Ne, List.dropWhile_eq_nil_iff]
    have h₁ := List.head_dropWhile_not isJsSpace s hd
    rw [h _ (List.head_mem hd)] at h₁
    exact absurd h₁ (by decide)
  · intro h x hx
    exact h x ((List.dropWhile_suffix isJsSpace).subset hx)

theorem trim_trim (s : Str) : trim (trim s) = trim s := by
  have h₁ : (trim s).dropWhile isJsSpace = trim s := by
    by_cases hnil : trim s = []
    · simp [hnil]
    · have hd : s.dropWhile isJsSpace ≠ [] := by
        intro h
        apply hnil
        rw [trim_eq, h]
        simp
      obtain ⟨t, ht⟩ := List.rdropWhile_prefix isJsSpace (s.dropWhile isJsSpace)
      rw [← trim_eq] at ht
      match htr : trim s, hnil with
      | c :: cs, _ =>
        have hc : isJsSpace c = false := by
          have := List.head_dropWhile_not isJsSpace s hd
          simp only [← ht, htr, List.cons_append, List.head_cons] at this
          simpa using this
        simp [List.dropWhile, hc]
  rw [trim_eq (trim s), h₁, trim_eq, List.rdropWhile_idempotent]

theorem trim_cons_space {c : Char} (h : isJsSpace c = true) (s : Str) :
    trim (c :: s) = trim s := by
  simp [trim, List.dropWhile, h]

theorem includes_cons (n : Str) (c : Char) (cs : Str) :
    includes n (c :: cs) = (startsWith n (c :: cs) || includes n cs) := rfl

theorem startsWith_iff (n s : Str) : startsWith n s = true ↔ n <+: s := by
  induction n generalizing s with
  | nil => simp [startsWith]
  | cons a as ih =>
    cases s with
    | nil => simp [startsWith]
    | cons b bs => simp [startsWith, ih, List.cons_prefix_cons]

theorem includes_iff (n s : Str) : includes n s = true ↔ n <:+: s := by
  induction s with
  | nil => simp [includes, startsWith_iff]
  | cons c cs ih =>
    simp only [includes, Bool.or_eq_true, startsWith_iff, ih]
    rw [List.infix_cons_iff]

theorem includes_eq_false_of_infix {n r s : Str} (hr : r <:+: s)
    (h : includes n s = false) : includes n r = false := by
  rw [← Bool.not_eq_true, includes_iff] at h ⊢
  exact fun hn => h (hn.trans hr)

theorem stripFence_isSome_iff (s : Str) : (stripFence s).isSome ↔ fence <+: s := by
  constructor
  · intro h
    obtain ⟨r, hr⟩ := Option.isSome_iff_exists.mp h
    exact ⟨r, (stripFence_eq_some hr).symm⟩
  · rintro ⟨r, rfl⟩
    simp [stripFence_fence_append]

theorem untilFence_eq_some {t b : Str} (h : untilFence t = some b) :
    ∃ post, t = b ++ fence ++ post := by
  induction t generalizing b with
  | nil => simp [untilFence] at h
  | cons c cs ih =>
    simp only [untilFence] at h
    cases hs : stripFence (c :: cs) with
    | some rest =>
      simp only [hs, Option.some.injEq] at h
      subst h
      exact ⟨rest, by simpa using stripFence_eq_some hs⟩
    | none =>
      simp only [hs, Option.map_eq_some'] at h
      obtain ⟨b', hb', rfl⟩ := h
      obtain ⟨post, rfl⟩ := ih hb'
      exact ⟨post, by simp⟩

theorem untilFence_eq_none_iff (t : Str) : untilFence t = none ↔ ¬ fence <:+: t := by
  constructor
  · rintro h ⟨a, c, rfl⟩
    have h₁ := untilFence_suffix_eq_none (r := fence ++ c) ⟨a, by simp⟩ h
    simp [untilFence, fence, stripFence] at h₁
  · intro h
    cases hu : untilFence t with
    | none => rfl
    | some b =>
      obtain ⟨post, rfl⟩ := untilFence_eq_some hu
      exact absurd ⟨b, post, rfl⟩ h

theorem untilFence_eq_none_iff_includes (t : Str) :
    untilFence t = none ↔ includes fence t = false := by
  rw [untilFence_eq_none_iff, ← includes_iff, Bool.not_eq_true]

theorem afterFence_eq_some {t r : Str} (h : afterFence t = some r) :
    ∃ pre, t = pre ++ fence ++ r := by
  induction t with
  | nil => simp [afterFence] at h
  | cons c cs ih =>
    simp only [afterFence] at h
    cases hs : stripFence (c :: cs) with
    | some rest =>
      simp only [hs, Option.some.injEq] at h
      subst h
      exact ⟨[], by simpa using stripFence_eq_some hs⟩
    | none =>
      simp only [hs] at h
      obtain ⟨pre, rfl⟩ := ih h
      exact ⟨c :: pre, by simp⟩

theorem afterFence_cons_of_some {c : Char} {cs r : Str} (h : stripFence (c :: cs) = some r) :
    afterFence (c :: cs) = some r := by
  simp [afterFence, h]

theorem afterFence_cons_of_none {c : Char} {cs : Str} (h : stripFence (c :: cs) = none) :
    afterFence (c :: cs) = afterFence cs := by
  simp [afterFence, h]

theorem untilFence_cons_of_some {c : Char} {cs r : Str} (h : stripFence (c :: cs) = some r) :
    untilFence (c :: cs) = some [] := by
  simp [untilFence, h]

theorem untilFence_cons_of_none {c : Char} {cs : Str} (h : stripFence (c :: cs) = none) :
    untilFence (c :: cs) = (untilFence cs).map (c :: ·) := by
  simp [untilFence, h]

theorem afterFence_append_fence (a u : Str) :
    ∃ r, afterFence (a ++ fence ++ u) = some r ∧ u <:+ r := by
  induction a with
  | nil => exact ⟨u, by simp [afterFence, fence, stripFence], List.suffix_refl _⟩
  | cons x a ih =>
    cases hs : stripFence (x :: a ++ fence ++ u) with
    | some rest =>
      refine ⟨rest, afterFence_cons_of_some hs, ?_⟩
      have h₁ := stripFence_eq_some hs
      have h₂ : rest <:+ x :: a ++ fence ++ u := ⟨fence, h₁.symm⟩
      have h₃ : u <:+ x :: a ++ fence ++ u := List.suffix_append _ _
      refine List.suffix_of_suffix_length_le h₃ h₂ ?_
      have := congrArg List.length h₁
      simp [fence] at this
      omega
    | none =>
      obtain ⟨r, hr, hu⟩ := ih
      exact ⟨r, (afterFence_cons_of_none hs).trans hr, hu⟩

/-- The pattern matches nowhere exactly when the input does not hold two fence
markers that do not overlap. -/
theorem fencedInterior_eq_none_iff (s : Str) :
    fencedInterior s = none ↔ ∀ a b c : Str, s ≠ a ++ fence ++ b ++ fence ++ c := by
  constructor
  · rintro h a b c rfl
    obtain ⟨r, hr, hu⟩ := afterFence_append_fence a (b ++ fence ++ c)
    simp only [fencedInterior, ← List.append_assoc] at h
    simp only [← List.append_assoc] at hr
    rw [hr] at h
    have h₁ : untilFence r = none :=
      untilFence_dropWhile_eq_none (untilFence_dropNewline_eq_none h)
    have h₂ := untilFence_suffix_eq_none hu h₁
    rw [untilFence_eq_none_iff] at h₂
    exact h₂ ⟨b, c, rfl⟩
  · intro h
    cases hf : fencedInterior s with
    | none => rfl
    | some b =>
      exfalso
      simp only [fencedInterior, Option.bind_eq_some] at hf
      obtain ⟨rest, hrest, hb⟩ := hf
      obtain ⟨pre, rfl⟩ := afterFence_eq_some hrest
      obtain ⟨post, hpost⟩ := untilFence_eq_some hb
      obtain ⟨x, hx⟩ := skip_suffix rest
      exact h pre (x ++ b) post (by rw [← hx, hpost]; simp)

/-- The text before the first fence marker holds no fence marker. -/
theorem untilFence_no_fence {t b : Str} (h : untilFence t = some b) : ¬ fence <:+: b := by
  induction t generalizing b with
  | nil => simp [untilFence] at h
  | cons c cs ih =>
    cases hs : stripFence (c :: cs) with
    | some rest =>
      rw [untilFence_cons_of_some hs, Option.some.injEq] at h
      subst h
      simp [fence]
    | none =>
      rw [untilFence_cons_of_none hs, Option.map_eq_some'] at h
      obtain ⟨b', hb', rfl⟩ := h
      rw [List.infix_cons_iff]
      rintro (hp | hi)
      · obtain ⟨post, hpost⟩ := untilFence_eq_some hb'
        have h₁ : fence <+: c :: cs := by
          refine hp.trans ⟨fence ++ post, ?_⟩
          rw [hpost]
          simp
        rw [← stripFence_isSome_iff, hs] at h₁
        simp at h₁
      · exact ih hb' hi

theorem stripFence_append_eq_none {i : Str} {c : Char} (post : Str)
    (h : ¬ fence <+: c :: (i ++ ['`', '`'])) :
    stripFence (c :: (i ++ fence ++ post)) = none := by
  cases hs : stripFence (c :: (i ++ fence ++ post)) with
  | none => rfl
  | some rest =>
    exfalso
    apply h
    have h₁ : fence <+: c :: (i ++ fence ++ post) :=
      (stripFence_isSome_iff _).mp (by rw [hs]; rfl)
    have h₂ : c :: (i ++ ['`', '`']) <+: c :: (i ++ fence ++ post) :=
      ⟨'`' :: post, by simp [fence]⟩
    exact List.prefix_of_prefix_length_le h₁ h₂ (by simp [fence])

/-- A text that holds no fence marker, even with two more backticks, is what
stands before the first fence marker of the text followed by a fence. -/
theorem untilFence_append_fence (i post : Str)
    (h : includes fence (i ++ ['`', '`']) = false) :
    untilFence (i ++ fence ++ post) = some i := by
  induction i with
  | nil => simp [untilFence, fence, stripFence]
  | cons c i ih =>
    rw [List.cons_append, includes_cons, Bool.or_eq_false_iff] at h
    have hs := stripFence_append_eq_none post (i := i) (c := c)
      (by rw [← startsWith_iff, h.1]; simp)
    simp only [List.cons_append]
    rw [untilFence_cons_of_none hs, ih h.2]
    rfl

theorem afterFence_append_fence_first (pre r : Str)
    (h : includes fence (pre ++ ['`', '`']) = false) :
    afterFence (pre ++ fence ++ r) = some r := by
  induction pre with
  | nil => simp [afterFence, fence, stripFence]
  | cons c i ih =>
    rw [List.cons_append, includes_cons, Bool.or_eq_false_iff] at h
    have hs := stripFence_append_eq_none r (i := i) (c := c)
      (by rw [← startsWith_iff, h.1]; simp)
    simp only [List.cons_append]
    rw [afterFence_cons_of_none hs, ih h.2]

theorem dropWhile_tag (tag rest : Str) (htag : ∀ c ∈ tag, isWordChar c = true)
    (hrest : ∀ c ∈ rest.head?, isWordChar c = false) :
    (tag ++ rest).dropWhile isWordChar = rest := by
  induction tag with
  | nil =>
    cases rest with
    | nil => rfl
    | cons c cs => simp [List.dropWhile, hrest c (by simp)]
  | cons c cs ih =>
    have hc : isWordChar c = true := htag c (by simp)
    simp only [List.cons_append, List.dropWhile, hc]
    exact ih (fun x hx => htag x (by simp [hx]))

/-! ## Claims on `extractCode` -/

/-- The function on typical responses: a tagged block, a text without fence, a
block whose code starts right after the fence (its first word is taken for the
tag), a fence of four backticks, and two blocks. -/
theorem extractCode_samples :
    extractCode "```jsx\nconst a = 1;\n```".toList = "const a = 1;".toList ∧
    extractCode "  hello `x` ".toList = "hello `x`".toList ∧
    extractCode "```x = 1```".toList = "= 1".toList ∧
    extractCode "````js\nx````".toList = "`js\nx".toList ∧
    extractCode "```ts\na```\n```html\nb```".toList = "a".toList := by
  decide

/-- C1, as stated, fails on inputs that hold one fenced block only, opened by
the first triple backtick of the input.
* No tag, the code right after the fence: the first word of the interior
  `hello world` is taken for the tag and the result is `world`.
* The tag `c++`: the pattern takes `c` for the tag and the rest of the tag
  stays in the result, `++` and the code, where the trimmed interior is
  `int x;`.
* An interior that ends in a backtick, closed by the fence: the lazy group
  stops one character early and the last backtick of the interior is lost.
* The tag `html` and the interior `<html></html>`: the result holds the text
  of the language tag. -/
theorem extractCode_single_block_counterexample :
    (includes fence ("hello world".toList ++ ['`', '`']) = false ∧
      extractCode (fence ++ "hello world".toList ++ fence) = "world".toList ∧
      trim "hello world".toList = "hello world".toList) ∧
    (includes fence ("\nint x;".toList ++ ['`', '`']) = false ∧
      extractCode (fence ++ "c++".toList ++ "\nint x;".toList ++ fence) = "++\nint x;".toList ∧
      trim "\nint x;".toList = "int x;".toList) ∧
    ((∀ c ∈ "js".toList, isWordChar c = true) ∧
      includes fence "\nx = `y`".toList = false ∧
      extractCode (fence ++ "js".toList ++ "\nx = `y`".toList ++ fence) = "x = `y".toList ∧
      trim "\nx = `y`".toList = "x = `y`".toList) ∧
    ((∀ c ∈ "html".toList, isWordChar c = true) ∧
      includes fence ("\n<html></html>\n".toList ++ ['`', '`']) = false ∧
      extractCode (fence ++ "html".toList ++ "\n<html></html>\n".toList ++ fence) =
        "<html></html>".toList ∧
      includes "html".toList "<html></html>".toList = true) := by
  decide

/-- C1, amended: the input holds a well-formed fenced block, the first one: an
opening triple backtick with none starting before it, a language tag made of
word characters only (possibly empty) that the interior does not prolong with
a word character, an interior that holds no triple backtick and does not end
in a backtick, and the closing triple backtick.  Then `extractCode` returns
exactly the interior with the white space at both ends removed; the result
holds no fence marker, and it holds the language tag only if the interior
itself does. -/
theorem extractCode_first_block (pre tag interior post : Str)
    (hpre : includes fence (pre ++ ['`', '`']) = false)
    (htag : ∀ c ∈ tag, isWordChar c = true)
    (hhead : ∀ c ∈ interior.head?, isWordChar c = false)
    (hint : includes fence (interior ++ ['`', '`']) = false) :
    extractCode (pre ++ fence ++ tag ++ interior ++ fence ++ post) = trim interior ∧
    includes fence (extractCode (pre ++ fence ++ tag ++ interior ++ fence ++ post)) = false ∧
    (includes tag interior = false →
      includes tag (extractCode (pre ++ fence ++ tag ++ interior ++ fence ++ post)) = false) := by
  have hrest : ∀ c ∈ (interior ++ fence ++ post).head?, isWordChar c = false := by
    cases interior with
    | nil => simp [fence]; decide
    | cons c cs => simpa using hhead
  have h₁ : extractCode (pre ++ fence ++ tag ++ interior ++ fence ++ post) = trim interior := by
    have hs : pre ++ fence ++ tag ++ interior ++ fence ++ post =
        pre ++ fence ++ (tag ++ (interior ++ fence ++ post)) := by simp
    rw [extractCode_eq, hs, fencedInterior, afterFence_append_fence_first _ _ hpre,
      Option.some_bind, dropWhile_tag _ _ htag hrest]
    cases interior with
    | nil => simp [fence, dropNewline, untilFence, stripFence]
    | cons c cs =>
      by_cases hc : c = '\n'
      · subst hc
        rw [List.cons_append, includes_cons, Bool.or_eq_false_iff] at hint
        have := untilFence_append_fence cs post hint.2
        simp only [List.cons_append, dropNewline, if_true, this, Option.getD_some]
        exact (trim_cons_space (by decide) cs).symm
      · have := untilFence_append_fence (c :: cs) post hint
        simp only [List.cons_append, dropNewline, hc, if_false] at this ⊢
        rw [this]
        rfl
  refine ⟨h₁, ?_, ?_⟩
  · rw [h₁]
    exact includes_eq_false_of_infix
      ((trim_inside interior).trans (List.prefix_append _ _).isInfix) hint
  · intro h
    rw [h₁]
    exact includes_eq_false_of_infix (trim_inside interior) h

/-- Witness for C1: prose with inline code, then a block tagged `jsx`, then
prose; the result is the line of code. -/
theorem extractCode_first_block_witness :
    includes fence ("Here is `it`:\n".toList ++ ['`', '`']) = false ∧
    (∀ c ∈ "jsx".toList, isWordChar c = true) ∧
    (∀ c ∈ "\nconst a = 1;\n".toList.head?, isWordChar c = false) ∧
    includes fence ("\nconst a = 1;\n".toList ++ ['`', '`']) = false ∧
    extractCode ("Here is `it`:\n".toList ++ fence ++ "jsx".toList ++
        "\nconst a = 1;\n".toList ++ fence ++ "\nDone.".toList) = trim "\nconst a = 1;\n".toList ∧
    trim "\nconst a = 1;\n".toList = "const a = 1;".toList ∧
    includes fence (extractCode ("Here is `it`:\n".toList ++ fence ++ "jsx".toList ++
        "\nconst a = 1;\n".toList ++ fence ++ "\nDone.".toList)) = false ∧
    includes "jsx".toList (extractCode ("Here is `it`:\n".toList ++ fence ++ "jsx".toList ++
        "\nconst a = 1;\n".toList ++ fence ++ "\nDone.".toList)) = false :=
  have h := extractCode_first_block "Here is `it`:\n".toList "jsx".toList
    "\nconst a = 1;\n".toList "\nDone.".toList (by decide) (by decide) (by decide) (by decide)
  ⟨by decide, by decide, by decide, by decide, h.1, by decide, h.2.1, h.2.2 (by decide)⟩

/-- C9: on an input with no fenced block (no two fence markers that do not
overlap), `extractCode` returns the input with the white space at both ends
removed. -/
theorem extractCode_unfenced (s : Str)
    (h : ∀ a b c : Str, s ≠ a ++ fence ++ b ++ fence ++ c) :
    extractCode s = trim s := by
  rw [extractCode_eq, (fencedInterior_eq_none_iff s).2 h]
  rfl

/-- Witness for C9: an opening fence that is never closed. -/
theorem extractCode_unfenced_witness :
    (∀ a b c : Str, "  ```js\nlet x = `q`; ".toList ≠ a ++ fence ++ b ++ fence ++ c) ∧
    extractCode "  ```js\nlet x = `q`; ".toList = trim "  ```js\nlet x = `q`; ".toList :=
  ⟨(fencedInterior_eq_none_iff _).1 (by decide),
   extractCode_unfenced _ ((fencedInterior_eq_none_iff _).1 (by decide))⟩

/-- C10: `extractCode` is idempotent on every input. -/
theorem extractCode_idempotent (x : Str) :
    extractCode (extractCode x) = extractCode x := by
  have key : ∀ r : Str, (∀ a b c : Str, r ≠ a ++ fence ++ b ++ fence ++ c) →
      extractCode (trim r) = trim r := by
    intro r hr
    have h₁ : fencedInterior (trim r) = none := by
      rw [fencedInterior_eq_none_iff]
      rintro a b c habc
      obtain ⟨l, m, hlm⟩ := trim_inside r
      exact hr (l ++ a) b (c ++ m) (by rw [← hlm, habc]; simp)
    rw [extractCode_eq, h₁]
    exact trim_trim r
  rw [extractCode_eq x]
  cases hf : fencedInterior x with
  | none => exact key x ((fencedInterior_eq_none_iff x).1 hf)
  | some b =>
    refine key b ?_
    simp only [fencedInterior, Option.bind_eq_some] at hf
    obtain ⟨rest, -, hb⟩ := hf
    rintro a₁ b₁ c₁ rfl
    exact untilFence_no_fence hb ⟨a₁, b₁ ++ fence ++ c₁, by simp⟩

/-! ## Claims on `getResponse` -/

theorem retryLoop_falsy (n k : Nat) :
    retryLoop (fun _ => .resolveFalsy) n 0 ⟨k, [], []⟩ = .running 0 ⟨k + n, [], []⟩ := by
  induction n generalizing k with
  | zero => simp [retryLoop, maxRetries]
  | succ n ih =>
    simp only [retryLoop, maxRetries, Nat.zero_lt_succ, if_true, ih]
    congr 2
    omega

/-- The loop ends within `maxRetries - attempt` calls when no call resolves
with a falsy value. -/
theorem retryLoop_bounded (svc : Service) (hsvc : ∀ i, svc i ≠ .resolveFalsy)
    (fuel attempt : Nat) (fx : Effects) (hfuel : maxRetries ≤ attempt + fuel) :
    (∃ r fx₁, retryLoop svc fuel attempt fx = .exited r fx₁ ∧
        fx₁.calls ≤ fx.calls + (maxRetries - attempt)) ∨
    (∃ m fx₁, retryLoop svc fuel attempt fx = .threw m fx₁ ∧
        fx₁.calls ≤ fx.calls + (maxRetries - attempt)) := by
  induction fuel generalizing attempt fx with
  | zero =>
    have : ¬ attempt < maxRetries := by omega
    exact .inl ⟨none, fx, by simp [retryLoop, this], by omega⟩
  | succ fuel ih =>
    by_cases ha : attempt < maxRetries
    · cases hc : svc fx.calls with
      | resolveFalsy => exact absurd hc (hsvc _)
      | resolve r =>
        exact .inl ⟨some r, ⟨fx.calls + 1, fx.notices, fx.waits⟩,
          by simp [retryLoop, ha, hc], by simp only; omega⟩
      | reject m =>
        by_cases hm : includes overloadMarker m = true
        · have key : retryLoop svc (fuel + 1) attempt fx = retryLoop svc fuel (attempt + 1)
              ⟨fx.calls + 1, fx.notices ++ [attempt + 1], fx.waits ++ [2000 * (attempt + 1)]⟩ := by
            simp [retryLoop, ha, hc, hm]
          rw [key]
          rcases ih (attempt + 1)
              ⟨fx.calls + 1, fx.notices ++ [attempt + 1], fx.waits ++ [2000 * (attempt + 1)]⟩
              (by omega) with ⟨r, fx₁, h₁, h₂⟩ | ⟨m₁, fx₁, h₁, h₂⟩
          · exact .inl ⟨r, fx₁, h₁, by simp only at h₂; omega⟩
          · exact .inr ⟨m₁, fx₁, h₁, by simp only at h₂; omega⟩
        · exact .inr ⟨m, ⟨fx.calls + 1, fx.notices, fx.waits⟩,
            by simp [retryLoop, ha, hc, hm], by simp only; omega⟩
    · exact .inl ⟨none, fx, by simp [retryLoop, ha], by omega⟩

/-- C2 fails on the code: when every call resolves with a falsy value the loop
never counts an attempt, so after any number `n` of calls it is still running,
with `n` calls issued, and `getResponse` has reached no outcome. -/
theorem getResponse_falsy_unbounded (n : Nat) :
    retryLoop (fun _ => .resolveFalsy) n 0 Effects.init = .running 0 ⟨n, [], []⟩ ∧
    getResponse (fun _ => .resolveFalsy) n ⟨"a pricing card".toList, [], false, false⟩ = none := by
  have h := retryLoop_falsy n 0
  simp only [Nat.zero_add] at h
  refine ⟨h, ?_⟩
  have hp : trim "a pricing card".toList ≠ [] := by decide
  simp only [getResponse, hp, if_false, Effects.init, h, finish]

/-- C3 fails on the code: the service rejects every call with an overload
error; after the third the error thrown is the one of line 111, whose message
does not hold the marker, and the toast is the generic one. -/
theorem getResponse_overload_exhausted_toast :
    (getResponse (fun _ => .reject "503 Service Unavailable".toList) 3
        ⟨"a pricing card".toList, [], false, false⟩).map (fun run => (run.caught, run.toast)) =
      some (some unavailableMessage, some genericToast) ∧
    genericToast ≠ overloadedToast := by
  decide

theorem retryLoop_overload (svc : Service) (fuel attempt : Nat) (fx : Effects) (message : Str)
    (ha : attempt < maxRetries) (hc : svc fx.calls = .reject message)
    (hm : includes overloadMarker message = true) :
    retryLoop svc (fuel + 1) attempt fx = retryLoop svc fuel (attempt + 1)
      ⟨fx.calls + 1, fx.notices ++ [attempt + 1], fx.waits ++ [2000 * (attempt + 1)]⟩ := by
  simp [retryLoop, ha, hc, hm]

theorem retryLoop_resolve (svc : Service) (fuel attempt : Nat) (fx : Effects)
    (response : ResponseText) (ha : attempt < maxRetries)
    (hc : svc fx.calls = .resolve response) :
    retryLoop svc (fuel + 1) attempt fx =
      .exited (some response) ⟨fx.calls + 1, fx.notices, fx.waits⟩ := by
  simp [retryLoop, ha, hc]

theorem retryLoop_exhausted (svc : Service) (fuel attempt : Nat) (fx : Effects)
    (ha : ¬ attempt < maxRetries) :
    retryLoop svc fuel attempt fx = .exited none fx := by
  cases fuel <;> simp [retryLoop, ha]

theorem getResponse_of_exited (svc : Service) (fuel : Nat) (view : View)
    (response : ResponseText) (fx : Effects) (hprompt : trim view.prompt ≠ [])
    (hloop : retryLoop svc fuel 0 Effects.init = .exited (some response) fx) :
    getResponse svc fuel view =
      some { view := ⟨view.prompt, extractCode response.read, false, true⟩
             fx := fx
             caught := none
             toast := none } := by
  simp only [getResponse, hprompt, if_false, hloop, finish]

theorem getResponse_of_failed (svc : Service) (fuel : Nat) (view : View)
    (hprompt : trim view.prompt ≠ []) :
    getResponse svc fuel view =
      finish ⟨view.prompt, view.code, true, true⟩ (retryLoop svc fuel 0 Effects.init) := by
  simp only [getResponse, hprompt, if_false]

/-- C4, as stated, fails: the service answers the first call with an empty
fenced block; the run succeeds, the output is shown, loading is off and the
stored code is the empty string. -/
theorem getResponse_empty_code_counterexample :
    retryLoop (fun _ => .resolve (.eager "```jsx\n```".toList)) 1 0 Effects.init =
      .exited (some (.eager "```jsx\n```".toList)) ⟨1, [], []⟩ ∧
    getResponse (fun _ => .resolve (.eager "```jsx\n```".toList)) 1
        ⟨"a pricing card".toList, [], false, false⟩ =
      some { view := ⟨"a pricing card".toList, [], false, true⟩
             fx := ⟨1, [], []⟩
             caught := none
             toast := none } := by
  decide

/-- C4, amended: after a generation whose last attempt succeeded with the
response `response`, the output is shown, loading is off and the stored code
is `extractCode` of the response text; it is non-empty exactly when the text
the extractor selects (the interior of the first fenced block, the whole
response when there is none) has a character that is not white space. -/
theorem getResponse_success_code (svc : Service) (fuel : Nat) (view : View)
    (response : ResponseText) (fx : Effects)
    (hprompt : trim view.prompt ≠ [])
    (hloop : retryLoop svc fuel 0 Effects.init = .exited (some response) fx) :
    ∃ run, getResponse svc fuel view = some run ∧
      run.view.outputScreen = true ∧ run.view.loading = false ∧
      run.view.code = extractCode response.read ∧
      (run.view.code ≠ [] ↔
        ∃ c ∈ (fencedInterior response.read).getD response.read, isJsSpace c = false) ∧
      (∀ text, response = .eager text ∨ response = .accessor text →
        run.view.code = extractCode text) := by
  refine ⟨_, getResponse_of_exited svc fuel view response fx hprompt hloop, rfl, rfl, rfl, ?_, ?_⟩
  · simp only [extractCode_eq, Ne, trim_eq_nil_iff]
    push_neg
    simp
  · rintro text (rfl | rfl) <;> rfl

/-- Witness for C4: the first call returns a fenced block through the
accessor; the stored code is the line of markup. -/
theorem getResponse_success_code_witness :
    ∃ run, getResponse (fun _ => .resolve (.accessor "```html\n<p>hi</p>\n```".toList)) 1
        ⟨"a greeting".toList, [], false, false⟩ = some run ∧
      run.view.outputScreen = true ∧ run.view.loading = false ∧
      run.view.code = extractCode (ResponseText.accessor "```html\n<p>hi</p>\n```".toList).read ∧
      (run.view.code ≠ [] ↔
        ∃ c ∈ (fencedInterior (ResponseText.accessor "```html\n<p>hi</p>\n```".toList).read).getD
            (ResponseText.accessor "```html\n<p>hi</p>\n```".toList).read,
          isJsSpace c = false) ∧
      run.view.code = "<p>hi</p>".toList := by
  obtain ⟨run, h₁, h₂, h₃, h₄, h₅, h₆⟩ :=
    getResponse_success_code (fun _ => .resolve (.accessor "```html\n<p>hi</p>\n```".toList)) 1
      ⟨"a greeting".toList, [], false, false⟩ (.accessor "```html\n<p>hi</p>\n```".toList)
      ⟨1, [], []⟩ (by decide) (by decide)
  exact ⟨run, h₁, h₂, h₃, h₄, h₅, (h₆ _ (.inr rfl)).trans (by decide)⟩

/-- C5: when the first `k` calls (`k` at most 2) fail with the overload marker
and call `k + 1` resolves with a response, `getResponse` ends in success: the
stored code is `extractCode` of the text that response carries, as a string or
behind its accessor, no error is caught or shown, exactly `k` retry notices
were printed and `k + 1` calls were made. -/
theorem getResponse_success_after_overloads (svc : Service) (k fuel : Nat) (view : View)
    (response : ResponseText)
    (hk : k < 3)
    (hfail : ∀ i < k, ∃ message, svc i = .reject message ∧
      includes overloadMarker message = true)
    (hok : svc k = .resolve response)
    (hprompt : trim view.prompt ≠ [])
    (hfuel : k < fuel) :
    ∃ run, getResponse svc fuel view = some run ∧
      (∀ text, response = .eager text ∨ response = .accessor text →
        run.view.code = extractCode text) ∧
      run.view.loading = false ∧ run.caught = none ∧ run.toast = none ∧
      run.fx.notices.length = k ∧ run.fx.calls = k + 1 := by
  obtain ⟨f, rfl⟩ : ∃ f, fuel = f + k + 1 := ⟨fuel - k - 1, by omega⟩
  have h3 : ∀ a, a < 3 → a < maxRetries := fun a h => h
  have hloop : ∃ fx, retryLoop svc (f + k + 1) 0 Effects.init = .exited (some response) fx ∧
      fx.notices.length = k ∧ fx.calls = k + 1 := by
    interval_cases k
    · exact ⟨_, retryLoop_resolve svc _ 0 Effects.init response (h3 0 (by omega)) hok, rfl, rfl⟩
    · obtain ⟨m₀, h₀, hm₀⟩ := hfail 0 (by omega)
      refine ⟨⟨2, [1], [2000]⟩, ?_, rfl, rfl⟩
      rw [retryLoop_overload svc _ 0 Effects.init m₀ (h3 0 (by omega)) h₀ hm₀]
      exact retryLoop_resolve svc _ 1 _ response (h3 1 (by omega)) hok
    · obtain ⟨m₀, h₀, hm₀⟩ := hfail 0 (by omega)
      obtain ⟨m₁, h₁, hm₁⟩ := hfail 1 (by omega)
      refine ⟨⟨3, [1, 2], [2000, 4000]⟩, ?_, rfl, rfl⟩
      rw [retryLoop_overload svc _ 0 Effects.init m₀ (h3 0 (by omega)) h₀ hm₀,
        retryLoop_overload svc _ 1 _ m₁ (h3 1 (by omega)) h₁ hm₁]
      exact retryLoop_resolve svc _ 2 _ response (h3 2 (by omega)) hok
  obtain ⟨fx, hfx, hn, hc⟩ := hloop
  refine ⟨_, getResponse_of_exited svc _ view response fx hprompt hfx, ?_, rfl, rfl, rfl, hn, hc⟩
  rintro text (rfl | rfl) <;> rfl

/-- Witness for C5: two overload errors, then a response; the stored code is
the line of the response, with two notices and three calls. -/
theorem getResponse_success_after_overloads_witness :
    ∃ run, getResponse
        (fun n => if n < 2 then .reject "503 Service Unavailable".toList
          else .resolve (.eager "```jsx\nexport default App;\n```".toList)) 3
        ⟨"a pricing card".toList, [], false, false⟩ = some run ∧
      run.view.code = "export default App;".toList ∧
      run.view.loading = false ∧ run.caught = none ∧ run.toast = none ∧
      run.fx.notices.length = 2 ∧ run.fx.calls = 2 + 1 := by
  obtain ⟨run, h₁, h₂, h₃⟩ := getResponse_success_after_overloads
    (fun n => if n < 2 then .reject "503 Service Unavailable".toList
      else .resolve (.eager "```jsx\nexport default App;\n```".toList)) 2 3
    ⟨"a pricing card".toList, [], false, false⟩
    (.eager "```jsx\nexport default App;\n```".toList)
    (by decide)
    (fun i hi => ⟨"503 Service Unavailable".toList, by simp [hi], by decide⟩)
    (by decide) (by decide) (by decide)
  exact ⟨run, h₁, (h₂ _ (.inl rfl)).trans (by decide), h₃⟩

/-- C6: when the first three calls fail with the overload marker, `getResponse`
makes exactly three calls and ends in failure: the error caught is the one of
line 111 (model unavailable), the stored code is unchanged and loading is off. -/
theorem getResponse_overloaded_thrice (svc : Service) (fuel : Nat) (view : View)
    (hfail : ∀ i < 3, ∃ message, svc i = .reject message ∧
      includes overloadMarker message = true)
    (hprompt : trim view.prompt ≠ [])
    (hfuel : 3 ≤ fuel) :
    ∃ run, getResponse svc fuel view = some run ∧
      run.fx.calls = 3 ∧ run.caught = some unavailableMessage ∧
      run.view.code = view.code ∧ run.view.loading = false := by
  obtain ⟨f, rfl⟩ : ∃ f, fuel = f + 3 := ⟨fuel - 3, by omega⟩
  have h3 : ∀ a, a < 3 → a < maxRetries := fun a h => h
  obtain ⟨m₀, h₀, hm₀⟩ := hfail 0 (by omega)
  obtain ⟨m₁, h₁, hm₁⟩ := hfail 1 (by omega)
  obtain ⟨m₂, h₂, hm₂⟩ := hfail 2 (by omega)
  have hloop : retryLoop svc (f + 3) 0 Effects.init =
      .exited none ⟨3, [1, 2, 3], [2000, 4000, 6000]⟩ := by
    rw [retryLoop_overload svc _ 0 Effects.init m₀ (h3 0 (by omega)) h₀ hm₀,
      retryLoop_overload svc _ 1 _ m₁ (h3 1 (by omega)) h₁ hm₁,
      retryLoop_overload svc _ 2 _ m₂ (h3 2 (by omega)) h₂ hm₂]
    exact retryLoop_exhausted svc _ 3 _ (by decide)
  have hrun : getResponse svc (f + 3) view =
      some (handleError ⟨view.prompt, view.code, true, true⟩
        ⟨3, [1, 2, 3], [2000, 4000, 6000]⟩ unavailableMessage) := by
    rw [getResponse_of_failed svc _ view hprompt, hloop]
    rfl
  exact ⟨_, hrun, rfl, rfl, rfl, rfl⟩

/-- Witness for C6: every call is refused with an
overload error, the view holds an earlier result. -/
theorem getResponse_overloaded_thrice_witness :
    ∃ run, getResponse (fun _ => .reject "got status: 503 UNAVAILABLE".toList) 5
        ⟨"a navbar".toList, "<nav></nav>".toList, false, true⟩ = some run ∧
      run.fx.calls = 3 ∧ run.caught = some unavailableMessage ∧
      run.view.code = "<nav></nav>".toList ∧ run.view.loading = false :=
  getResponse_overloaded_thrice (fun _ => .reject "got status: 503 UNAVAILABLE".toList) 5
    ⟨"a navbar".toList, "<nav></nav>".toList, false, true⟩
    (fun _ _ => ⟨_, rfl, by decide⟩) (by decide) (by decide)

/-- C7: when a call of the service fails with an error whose message does not
hold the overload marker, the loop ends there by throwing that error: no call,
notice or wait is added after it, and the run ends with that error caught, the
generic toast and loading off.  When it is the first call of a request, the
run records exactly one call, no notice and no wait. -/
theorem getResponse_fatal_immediately (svc : Service) (fuel attempt : Nat) (fx : Effects)
    (message : Str) (view : View)
    (hrun : attempt < maxRetries)
    (hrej : svc fx.calls = .reject message)
    (hmark : includes overloadMarker message = false) :
    retryLoop svc (fuel + 1) attempt fx = .threw message ⟨fx.calls + 1, fx.notices, fx.waits⟩ ∧
    finish view (retryLoop svc (fuel + 1) attempt fx) =
      some { view := ⟨view.prompt, view.code, false, view.outputScreen⟩
             fx := ⟨fx.calls + 1, fx.notices, fx.waits⟩
             caught := some message
             toast := some genericToast } ∧
    (attempt = 0 → fx = Effects.init → trim view.prompt ≠ [] →
      getResponse svc (fuel + 1) view =
        some { view := ⟨view.prompt, view.code, false, true⟩
               fx := ⟨1, [], []⟩
               caught := some message
               toast := some genericToast }) := by
  have hloop : retryLoop svc (fuel + 1) attempt fx =
      .threw message ⟨fx.calls + 1, fx.notices, fx.waits⟩ := by
    simp [retryLoop, hrun, hrej, hmark]
  refine ⟨hloop, ?_, ?_⟩
  · simp [hloop, finish, handleError, hmark]
  · rintro rfl rfl hprompt
    rw [getResponse_of_failed svc _ view hprompt, hloop]
    simp [finish, handleError, hmark, Effects.init]

/-- Witness for C7: the first call is refused with
a quota error; the later calls would succeed and are never made. -/
theorem getResponse_fatal_immediately_witness :
    getResponse
        (fun n => if n = 0 then .reject "429 quota exceeded".toList
          else .resolve (.eager "ok".toList)) 4
        ⟨"a footer".toList, [], false, false⟩ =
      some { view := ⟨"a footer".toList, [], false, true⟩
             fx := ⟨1, [], []⟩
             caught := some "429 quota exceeded".toList
             toast := some genericToast } :=
  (getResponse_fatal_immediately
    (fun n => if n = 0 then .reject "429 quota exceeded".toList
      else .resolve (.eager "ok".toList)) 3 0 Effects.init "429 quota exceeded".toList
    ⟨"a footer".toList, [], false, false⟩ (by decide) (by decide) (by decide)).2.2
    rfl rfl (by decide)

/-! ## Claims on `downnloadFile` -/

/-- The code the view holds after a generation is trimmed. -/
theorem trim_extractCode (text : Str) : trim (extractCode text) = extractCode text := by
  rw [extractCode_eq, trim_trim]

theorem lookupLiteral_extensionMap_unknown (id : Str) (hcat : id ∉ catalogIds)
    (hproto : id ∉ objectPrototypeKeys) : lookupLiteral extensionMap id = .undefined := by
  simp only [catalogIds, List.mem_cons, List.mem_singleton, not_or, List.not_mem_nil,
    or_false] at hcat
  obtain ⟨h₁, h₂, h₃, h₄, h₅, h₆, h₇, h₈⟩ := hcat
  have e : ∀ key : Str, ¬ id = key → (id == key) = false := fun _ h => beq_eq_false_iff_ne.mpr h
  simp only [lookupLiteral, extensionMap, List.lookup, e _ h₁, e _ h₂, e _ h₃, e _ h₄, e _ h₅,
    e _ h₆, e _ h₇, e _ h₈, hproto, if_false]

/-- The tables of the export on a code that has a character other than white
space: `angular`, `react-js`, and the ids that are neither in the catalog nor
the name of a member inherited from `Object.prototype`. -/
theorem downnloadFile_extension_mime (code : Str) (hcode : trim code ≠ []) :
    downnloadFile code "angular".toList =
      .downloaded "CodeCrafter-Code.ts".toList "text/typescript".toList code
        "File downloaded as CodeCrafter-Code.ts".toList ∧
    downnloadFile code "react-js".toList =
      .downloaded "CodeCrafter-Code.jsx".toList "text/javascript".toList code
        "File downloaded as CodeCrafter-Code.jsx".toList ∧
    ∀ id : Str, id ∉ catalogIds → id ∉ objectPrototypeKeys →
      downnloadFile code id =
        .downloaded "CodeCrafter-Code.html".toList "text/html".toList code
          "File downloaded as CodeCrafter-Code.html".toList := by
  have ha : lookupLiteral extensionMap "angular".toList = .own "ts".toList := by decide
  have hr : lookupLiteral extensionMap "react-js".toList = .own "jsx".toList := by decide
  have hts : lookupLiteral mimeMap "ts".toList = .own "text/typescript".toList := by decide
  have hjsx : lookupLiteral mimeMap "jsx".toList = .own "text/javascript".toList := by decide
  have hhtml : lookupLiteral mimeMap "html".toList = .own "text/html".toList := by decide
  refine ⟨?_, ?_, ?_⟩
  · simp only [downnloadFile, hcode, if_false, ha, hts, Lookup.orElse]
    rfl
  · simp only [downnloadFile, hcode, if_false, hr, hjsx, Lookup.orElse]
    rfl
  · intro id hcat hproto
    simp only [downnloadFile, hcode, if_false, lookupLiteral_extensionMap_unknown id hcat hproto,
      hhtml, Lookup.orElse]
    rfl

/-- On every non-empty code that the view can hold, the result of
`extractCode`, the export gives `.ts` and `text/typescript` for `angular`,
`.jsx` and `text/javascript` for `react-js`, and `.html` and `text/html` for
the ids that are neither in the catalog nor inherited names. -/
theorem downnloadFile_stored_code (text : Str) (hcode : extractCode text ≠ []) :
    downnloadFile (extractCode text) "angular".toList =
      .downloaded "CodeCrafter-Code.ts".toList "text/typescript".toList (extractCode text)
        "File downloaded as CodeCrafter-Code.ts".toList ∧
    downnloadFile (extractCode text) "react-js".toList =
      .downloaded "CodeCrafter-Code.jsx".toList "text/javascript".toList (extractCode text)
        "File downloaded as CodeCrafter-Code.jsx".toList ∧
    ∀ id : Str, id ∉ catalogIds → id ∉ objectPrototypeKeys →
      downnloadFile (extractCode text) id =
        .downloaded "CodeCrafter-Code.html".toList "text/html".toList (extractCode text)
          "File downloaded as CodeCrafter-Code.html".toList :=
  downnloadFile_extension_mime (extractCode text) (by rwa [trim_extractCode])

/-- C8 fails on the code: the view holds the non-empty code of a generation,
the framework id `constructor` is not in the catalog, and the read of line 157
finds the member that the object literal inherits, so the fallback `html` is
not taken and the file exported is not `CodeCrafter-Code.html` of type
`text/html`. -/
theorem downnloadFile_inherited_id :
    extractCode "```jsx\n<App />\n```".toList = "<App />".toList ∧
    "<App />".toList ≠ [] ∧
    "constructor".toList ∉ catalogIds ∧
    lookupLiteral extensionMap "constructor".toList = .inherited ∧
    downnloadFile "<App />".toList "constructor".toList = .engineDefined ∧
    downnloadFile "<App />".toList "constructor".toList ≠
      .downloaded "CodeCrafter-Code.html".toList "text/html".toList "<App />".toList
        "File downloaded as CodeCrafter-Code.html".toList := by
  decide

end CodeCrafter
